import Mathlib

/-!
Verification of the `autocomplete` repository's two prefix-store backends:
a character trie (`trie.go`) and a ternary search tree (`tst.go`).

Modelling conventions:
* A Go string is a list of bytes (`List Nat`, each element < 256 in real
  executions).
* The trie walks the string rune by rune (`for _, r := range word` decodes
  UTF-8); `utf8Decode` models that decoding and `goStr` models Go's
  `string(r)` conversion used when rebuilding output words.
* The ternary search tree walks the string byte by byte
  (`rune(word[index])`), so its nodes store byte values.
* A Go `nil` pointer is the `TstNode.nilt` constructor (TST) or `Option`
  (where a function can return `nil`).
* A Go run-time panic (out-of-range string index) is modelled by an
  `Option`-valued wrapper returning `none`.
-/

/-- Go's `string(r)` conversion of a rune `r` to its UTF-8 bytes
(invalid code points become U+FFFD, as in Go). -/
def goStr (r : Nat) : List Nat :=
  if r < 0x80 then [r]
  else if r < 0x800 then [0xC0 + r / 64, 0x80 + r % 64]
  else if 0xD800 ≤ r ∧ r ≤ 0xDFFF then [0xEF, 0xBF, 0xBD]
  else if r < 0x10000 then [0xE0 + r / 4096, 0x80 + r / 64 % 64, 0x80 + r % 64]
  else if r < 0x110000 then
    [0xF0 + r / 262144, 0x80 + r / 4096 % 64, 0x80 + r / 64 % 64, 0x80 + r % 64]
  else [0xEF, 0xBF, 0xBD]

/-- UTF-8 encoding of a rune sequence: Go's incremental
`s += string(r)` over a list of runes. -/
def encodeRunes (w : List Nat) : List Nat :=
  (w.map goStr).flatten

/-- Is `b` a UTF-8 continuation byte? -/
def isCont (b : Nat) : Bool :=
  128 ≤ b && b ≤ 191

/-- Accepted ranges for the first continuation byte after leading byte `b0`
(Go's `utf8.acceptRanges`). -/
def acceptCont (b0 b1 : Nat) : Bool :=
  if b0 = 0xE0 then 0xA0 ≤ b1 && b1 ≤ 0xBF
  else if b0 = 0xED then 0x80 ≤ b1 && b1 ≤ 0x9F
  else if b0 = 0xF0 then 0x90 ≤ b1 && b1 ≤ 0xBF
  else if b0 = 0xF4 then 0x80 ≤ b1 && b1 ≤ 0x8F
  else isCont b1

/-- Decode the first rune of a byte string whose leading byte is `b0` and
remaining bytes are `rest` (Go's `utf8.DecodeRuneInString`): the result is
the rune together with how many bytes of `rest` it consumed.  Invalid
sequences yield U+FFFD consuming only the leading byte. -/
def decodeFirst (b0 : Nat) (rest : List Nat) : Nat × Nat :=
  if b0 < 0x80 then (b0, 0)
  else if 0xC2 ≤ b0 && b0 ≤ 0xDF then
    match rest with
    | b1 :: _ =>
      if isCont b1 then ((b0 - 0xC0) * 64 + (b1 - 0x80), 1) else (0xFFFD, 0)
    | [] => (0xFFFD, 0)
  else if 0xE0 ≤ b0 && b0 ≤ 0xEF then
    match rest with
    | b1 :: b2 :: _ =>
      if acceptCont b0 b1 && isCont b2 then
        ((b0 - 0xE0) * 4096 + (b1 - 0x80) * 64 + (b2 - 0x80), 2)
      else (0xFFFD, 0)
    | _ => (0xFFFD, 0)
  else if 0xF0 ≤ b0 && b0 ≤ 0xF4 then
    match rest with
    | b1 :: b2 :: b3 :: _ =>
      if acceptCont b0 b1 && isCont b2 && isCont b3 then
        ((b0 - 0xF0) * 262144 + (b1 - 0x80) * 4096 + (b2 - 0x80) * 64 + (b3 - 0x80), 3)
      else (0xFFFD, 0)
    | _ => (0xFFFD, 0)
  else (0xFFFD, 0)

/-- Worker for `utf8Decode`: each step decodes one rune via `decodeFirst`
and skips the bytes it consumed.  The fuel argument (instantiated with the
list length, an upper bound on the number of runes) only makes the
recursion structural; it never runs out. -/
def utf8DecodeAux : Nat → List Nat → List Nat
  | _, [] => []
  | 0, _ :: _ => []
  | fuel + 1, b0 :: rest =>
    (decodeFirst b0 rest).1 :: utf8DecodeAux fuel (rest.drop (decodeFirst b0 rest).2)

/-- Go's `for _, r := range s` decoding of a byte string into runes. -/
def utf8Decode (l : List Nat) : List Nat :=
  utf8DecodeAux l.length l

/-- Strict lexicographic order on byte/rune strings
(Go's `<` on strings). -/
def lexLt (x y : List Nat) : Prop :=
  List.Lex (fun a b : Nat => a < b) x y

/-! ### Ternary search tree (`tst.go`) -/

/-- A `*tstNode`: `nilt` is the nil pointer; `node Char Left Mid Right IsEnd`
mirrors the `tstNode` struct (`Char` holds `rune(word[index])`, a byte
value). -/
inductive TstNode : Type where
  | nilt : TstNode
  | node (Char : Nat) (Left Mid Right : TstNode) (IsEnd : Bool) : TstNode
deriving Repr, DecidableEq

/-- `ternarysearchtree.insert(node, word, index)` on a nil node: a fresh
node is created holding the current character, and (the character being
equal to itself) insertion continues into the nil `Mid` child, building a
spine that ends with `IsEnd` set. -/
def newSpine : Nat → List Nat → TstNode
  | c, [] => .node c .nilt .nilt .nilt true
  | c, r :: rs => .node c .nilt (newSpine r rs) .nilt false

/-- `ternarysearchtree.insert(node, word, index)`.  The word suffix
`word[index:]` is passed as head character `c` and tail `rest`
(`index < len(word)-1` in the source is `rest ≠ []` here); the nil-node
case is `newSpine`. -/
def insertT : TstNode → Nat → List Nat → TstNode
  | .nilt, c, rest => newSpine c rest
  | .node ch l m r e, c, rest =>
    if c < ch then .node ch (insertT l c rest) m r e
    else if ch < c then .node ch l m (insertT r c rest) e
    else
      match rest with
      | r2 :: rs => .node ch l (insertT m r2 rs) r e
      | [] => .node ch l m r true

/-- `ternarysearchtree.contains(node, word, index)`: returns the node at the
end of the full character path, or nil. -/
def containsT : TstNode → Nat → List Nat → TstNode
  | .nilt, _, _ => .nilt
  | .node ch l m r e, c, rest =>
    if c < ch then containsT l c rest
    else if ch < c then containsT r c rest
    else
      match rest with
      | r2 :: rs => containsT m r2 rs
      | [] => .node ch l m r e

/-- `ternarysearchtree.getPrefixNode(node, prefix, index)`. -/
def getPrefT : TstNode → Nat → List Nat → TstNode
  | .nilt, _, _ => .nilt
  | .node ch l m r e, c, rest =>
    if c < ch then getPrefT l c rest
    else if ch < c then getPrefT r c rest
    else
      match rest with
      | r2 :: rs => getPrefT m r2 rs
      | [] => .node ch l m r e

/-- `ternarysearchtree.collect(node, prefix, &results)`: in-order traversal
(left, self, mid with extended prefix, right); appending to `*results` is
rendered as list concatenation in traversal order.  Note
`prefix + string(node.Char)` re-encodes the byte stored in `Char` through
UTF-8 (`goStr`). -/
def collectT : TstNode → List Nat → List (List Nat)
  | .nilt, _ => []
  | .node ch l m r e, pre =>
    collectT l pre ++
      (if e then [pre ++ goStr ch] else []) ++
      collectT m (pre ++ goStr ch) ++
      collectT r pre

/-- The `IsEnd` flag of a (possibly nil) node:
`node != nil && node.IsEnd`. -/
def endOf : TstNode → Bool
  | .nilt => false
  | .node _ _ _ _ e => e

/-- The `Mid` child of a (possibly nil) node. -/
def midOf : TstNode → TstNode
  | .nilt => .nilt
  | .node _ _ m _ _ => m

/-- `ternarysearchtree.Insert(word)` — the store's root update
`t.Root = t.insert(t.Root, word, 0)`.  `insert` evaluates `word[0]`
before anything else, so the empty word panics (`none`). -/
def tstInsert1 (t : TstNode) (w : List Nat) : Option TstNode :=
  match w with
  | [] => none
  | c :: rest => some (insertT t c rest)

/-- `ternarysearchtree.Contains(word)`: panics (`none`) on the empty word
(`word[0]` is evaluated before the nil check), otherwise
`node != nil && node.IsEnd`. -/
def tstContains1 (t : TstNode) (w : List Nat) : Option Bool :=
  match w with
  | [] => none
  | c :: rest => some (endOf (containsT t c rest))

/-- `ternarysearchtree.Autocomplete(prefix)`: a nil root returns the empty
result before any indexing; a non-nil root with an empty prefix panics
(`getPrefixNode` evaluates `prefix[0]`); otherwise the results are collected
from the prefix node's `Mid` subtree only. -/
def tstAutocomplete1 (t : TstNode) (p : List Nat) : Option (List (List Nat)) :=
  match t, p with
  | .nilt, _ => some []
  | .node _ _ _ _ _, [] => none
  | .node ch l m r e, c :: rest =>
    some (match getPrefT (.node ch l m r e) c rest with
          | .nilt => []
          | .node _ _ m2 _ _ => collectT m2 (c :: rest))

/-- `ternarysearchtree.ListContents()`: `collect(t.Root, "")`. -/
def tstListContents (t : TstNode) : List (List Nat) :=
  collectT t []

/-- `ternarysearchtree.Clear()`: `t.Root = &tstNode{}` — a zero-value node
(`Char` = 0, all children nil, `IsEnd` false), not a nil root. -/
def tstClear (_t : TstNode) : TstNode :=
  .node 0 .nilt .nilt .nilt false

/-- Inserting a whole list of words in order, propagating a panic. -/
def tstInsertAll (t : TstNode) : List (List Nat) → Option TstNode
  | [] => some t
  | w :: ws =>
    match tstInsert1 t w with
    | none => none
    | some t2 => tstInsertAll t2 ws

/-- Build a ternary store from `ws` and run `ListContents`. -/
def tstRunList (ws : List (List Nat)) : Option (List (List Nat)) :=
  match tstInsertAll .nilt ws with
  | none => none
  | some t => some (tstListContents t)

/-- Build a ternary store from `ws` and run `Autocomplete p`. -/
def tstRunAuto (ws : List (List Nat)) (p : List Nat) : Option (List (List Nat)) :=
  match tstInsertAll .nilt ws with
  | none => none
  | some t => tstAutocomplete1 t p

/-- Build a ternary store from `ws` and run `Contains w`. -/
def tstRunContains (ws : List (List Nat)) (w : List Nat) : Option Bool :=
  match tstInsertAll .nilt ws with
  | none => none
  | some t => tstContains1 t w

/-! ### Trie (`trie.go`) -/

mutual
/-- A `trieNode`: its `children` map and `isEnd` flag. -/
inductive TrieNode : Type where
  | mk (children : TrieChildren) (isEnd : Bool) : TrieNode
/-- The Go `map[rune]*trieNode` children map, modelled as an association
list with distinct keys; list position stands for one possible
(unspecified) iteration order of the map. -/
inductive TrieChildren : Type where
  | nil : TrieChildren
  | cons (key : Nat) (child : TrieNode) (rest : TrieChildren) : TrieChildren
end

/-- The `children` field. -/
def TrieNode.children : TrieNode → TrieChildren
  | .mk cs _ => cs

/-- The `isEnd` field. -/
def TrieNode.isEnd : TrieNode → Bool
  | .mk _ e => e

/-- Map lookup `children[r]`. -/
def getChild : TrieChildren → Nat → Option TrieNode
  | .nil, _ => none
  | .cons k c rest, r => if k = r then some c else getChild rest r

/-- Map assignment `children[r] = v` (replaces the entry for `r`, or adds
one). -/
def setChild : TrieChildren → Nat → TrieNode → TrieChildren
  | .nil, r, v => .cons r v .nil
  | .cons k c rest, r, v =>
    if k = r then .cons k v rest else .cons k c (setChild rest r v)

/-- `newTrie()`'s root: empty children map, `isEnd` false. -/
def newTrie : TrieNode :=
  .mk .nil false

/-- `trie.Insert(word)` over the word's runes: walk the characters,
creating a fresh empty child where one is missing, and set `isEnd` on the
final node.  (The iterative pointer walk of the source is rendered as
recursion on the remaining runes.) -/
def trieInsertR : TrieNode → List Nat → TrieNode
  | .mk cs _, [] => .mk cs true
  | .mk cs e, r :: rs =>
    match getChild cs r with
    | some c => .mk (setChild cs r (trieInsertR c rs)) e
    | none => .mk (setChild cs r (trieInsertR (.mk .nil false) rs)) e

/-- `trie.Contains(word)` over the word's runes: identical descent without
creating nodes; reports the final node's `isEnd`. -/
def trieContainsR : TrieNode → List Nat → Bool
  | .mk _ e, [] => e
  | .mk cs _, r :: rs =>
    match getChild cs r with
    | some c => trieContainsR c rs
    | none => false

/-- The descent part of `trie.Autocomplete`: find the node at the end of
the prefix's rune path, or report absence. -/
def descendR : TrieNode → List Nat → Option TrieNode
  | n, [] => some n
  | .mk cs _, r :: rs =>
    match getChild cs r with
    | some c => descendR c rs
    | none => none

mutual
/-- `trie.findAllChildren(node, prefix, &results)` at the byte level: the
node contributes `prefix` if flagged, then every child is visited. -/
def findAllB : TrieNode → List Nat → List (List Nat)
  | .mk cs e, pre => (if e then [pre] else []) ++ findAllListB cs pre
/-- The `for r, child := range node.children` loop of `findAllChildren`:
a child's rune `r` is appended as `prefix + string(r)` (`goStr`); children
are visited in association-list order (one possible Go map iteration
order). -/
def findAllListB : TrieChildren → List Nat → List (List Nat)
  | .nil, _ => []
  | .cons r c rest, pre => findAllB c (pre ++ goStr r) ++ findAllListB rest pre
end

/-- `trie.Insert(word)` on a byte-string word: the `range` loop decodes the
word's bytes into runes. -/
def trieInsertB (t : TrieNode) (w : List Nat) : TrieNode :=
  trieInsertR t (utf8Decode w)

/-- `trie.Contains(word)` on a byte-string word. -/
def trieContainsB (t : TrieNode) (w : List Nat) : Bool :=
  trieContainsR t (utf8Decode w)

/-- `trie.Autocomplete(prefix)`: descend along the prefix's runes (empty
result if some rune is absent), then collect all words below, seeded with
the original byte-string prefix. -/
def trieAutocompleteB (t : TrieNode) (p : List Nat) : List (List Nat) :=
  match descendR t (utf8Decode p) with
  | none => []
  | some n => findAllB n p

/-- `trie.ListContents()`: for each root child `r`, collect with prefix
`string(r)`; the root's own `isEnd` flag is not consulted. -/
def trieListContentsB (t : TrieNode) : List (List Nat) :=
  findAllListB t.children []

/-- `trie.Clear()`: replace the root with a fresh empty node. -/
def trieClearB (_t : TrieNode) : TrieNode :=
  .mk .nil false

/-- Inserting a whole list of byte-string words in order. -/
def trieInsertAllB (t : TrieNode) (ws : List (List Nat)) : TrieNode :=
  ws.foldl trieInsertB t

/-- Inserting a whole list of rune-level words in order. -/
def trieInsertAllR (t : TrieNode) (ws : List (List Nat)) : TrieNode :=
  ws.foldl trieInsertR t

/-- Build a trie from byte-string words and run `ListContents`. -/
def trieRunList (ws : List (List Nat)) : List (List Nat) :=
  trieListContentsB (trieInsertAllB newTrie ws)

/-- Build a trie from byte-string words and run `Autocomplete p`. -/
def trieRunAuto (ws : List (List Nat)) (p : List Nat) : List (List Nat) :=
  trieAutocompleteB (trieInsertAllB newTrie ws) p

/-! ### Abstraction functions and invariants (specification-side helpers) -/

/-- The character-level words stored in a TST subtree: a word through a
node either ends at it (`IsEnd`, contributing `[Char]`), continues through
`Mid` (contributing `Char :: w`), or belongs to a sibling subtree.  Listed
in the left/self/mid/right traversal order of `collect`. -/
def tstWords : TstNode → List (List Nat)
  | .nilt => []
  | .node ch l m r e =>
    tstWords l ++ (if e then [[ch]] else []) ++
      (tstWords m).map (fun w => ch :: w) ++ tstWords r

/-- The characters stored at one word position: the node and its
left/right siblings (not the `Mid` continuations). -/
def levelKeys : TstNode → List Nat
  | .nilt => []
  | .node ch l _ r _ => levelKeys l ++ [ch] ++ levelKeys r

/-- The ternary-search-tree ordering invariant: left siblings hold smaller
characters, right siblings larger, recursively everywhere. -/
def bstInv : TstNode → Prop
  | .nilt => True
  | .node ch l m r _ =>
    (∀ k ∈ levelKeys l, k < ch) ∧ (∀ k ∈ levelKeys r, ch < k) ∧
      bstInv l ∧ bstInv m ∧ bstInv r

/-- All characters stored in the tree are below `bound` (the TST stores
bytes, so real executions satisfy this with `bound = 256`). -/
def charsBounded (bound : Nat) : TstNode → Prop
  | .nilt => True
  | .node ch l m r _ =>
    ch < bound ∧ charsBounded bound l ∧ charsBounded bound m ∧ charsBounded bound r

mutual
/-- The rune-level words stored in a trie node: the empty word if the node
is flagged, plus a child's key prepended to each word below it. -/
def wordsT : TrieNode → List (List Nat)
  | .mk cs e => (if e then [[]] else []) ++ wordsC cs
/-- The words contributed by a children list, in list order. -/
def wordsC : TrieChildren → List (List Nat)
  | .nil => []
  | .cons r c rest => (wordsT c).map (fun w => r :: w) ++ wordsC rest
end

/-- The keys of a children association list. -/
def keysC : TrieChildren → List Nat
  | .nil => []
  | .cons k _ rest => k :: keysC rest

mutual
/-- Well-formedness of a trie node: its children map has distinct keys
(true of a Go map) and all child nodes are well-formed. -/
def uniqN : TrieNode → Prop
  | .mk cs _ => (keysC cs).Nodup ∧ uniqAll cs
/-- Well-formedness of every node in a children list. -/
def uniqAll : TrieChildren → Prop
  | .nil => True
  | .cons _ c rest => uniqN c ∧ uniqAll rest
end

/-! ### Lemmas about the ternary search tree -/

theorem newSpine_words (c : Nat) (rest : List Nat) :
    tstWords (newSpine c rest) = [c :: rest] := by
  induction rest generalizing c with
  | nil => simp [newSpine, tstWords]
  | cons r rs ih => simp [newSpine, tstWords, ih]

theorem mem_tstWords_insertT (t : TstNode) (c : Nat) (rest : List Nat) :
    ∀ a, a ∈ tstWords (insertT t c rest) ↔ a = c :: rest ∨ a ∈ tstWords t := by
  induction t, c, rest using insertT.induct with
  | case1 c rest =>
    intro a
    simp [insertT, newSpine_words, tstWords]
  | case2 ch l m r e c rest hlt ih =>
    intro a
    simp only [insertT, if_pos hlt, tstWords, List.mem_append, ih]
    tauto
  | case3 ch l m r e c rest hnlt hgt ih =>
    intro a
    simp only [insertT, if_neg hnlt, if_pos hgt, tstWords, List.mem_append, ih]
    tauto
  | case4 ch l m r e c hnlt hngt b1 tail ih =>
    intro a
    have hc : c = ch := by omega
    subst hc
    have hmap : ∀ b, b ∈ (tstWords (insertT m b1 tail)).map (fun w => c :: w) ↔
        b = c :: b1 :: tail ∨ b ∈ (tstWords m).map (fun w => c :: w) := by
      intro b
      simp only [List.mem_map, ih]
      constructor
      · rintro ⟨x, rfl | hx, rfl⟩
        · exact Or.inl rfl
        · exact Or.inr ⟨x, hx, rfl⟩
      · rintro (rfl | ⟨x, hx, rfl⟩)
        · exact ⟨b1 :: tail, Or.inl rfl, rfl⟩
        · exact ⟨x, Or.inr hx, rfl⟩
    simp only [insertT, if_neg hnlt, if_neg hngt, tstWords, List.mem_append, hmap]
    tauto
  | case5 ch l m r e c hnlt hngt =>
    intro a
    have hc : c = ch := by omega
    subst hc
    cases e <;>
      simp only [insertT, if_neg hnlt, if_neg hngt, tstWords, List.mem_append,
        if_true, if_false, List.mem_singleton, List.not_mem_nil] <;>
      tauto

theorem newSpine_levelKeys (c : Nat) (rest : List Nat) :
    levelKeys (newSpine c rest) = [c] := by
  cases rest <;> simp [newSpine, levelKeys]

theorem mem_levelKeys_insertT (t : TstNode) (c : Nat) (rest : List Nat) :
    ∀ k, k ∈ levelKeys (insertT t c rest) ↔ k = c ∨ k ∈ levelKeys t := by
  induction t, c, rest using insertT.induct with
  | case1 c rest =>
    intro k
    simp [insertT, newSpine_levelKeys, levelKeys]
  | case2 ch l m r e c rest hlt ih =>
    intro k
    simp only [insertT, if_pos hlt, levelKeys, List.mem_append, ih]
    tauto
  | case3 ch l m r e c rest hnlt hgt ih =>
    intro k
    simp only [insertT, if_neg hnlt, if_pos hgt, levelKeys, List.mem_append, ih]
    tauto
  | case4 ch l m r e c hnlt hngt b1 tail ih =>
    intro k
    have hc : c = ch := by omega
    subst hc
    simp only [insertT, if_neg hnlt, if_neg hngt, levelKeys, List.mem_append,
      List.mem_singleton]
    tauto
  | case5 ch l m r e c hnlt hngt =>
    intro k
    have hc : c = ch := by omega
    subst hc
    simp only [insertT, if_neg hnlt, if_neg hngt, levelKeys, List.mem_append,
      List.mem_singleton]
    tauto

theorem newSpine_bstInv (c : Nat) (rest : List Nat) : bstInv (newSpine c rest) := by
  induction rest generalizing c with
  | nil => simp [newSpine, bstInv, levelKeys]
  | cons r rs ih => simp [newSpine, bstInv, levelKeys, ih]

theorem bstInv_insertT (t : TstNode) (c : Nat) (rest : List Nat) (h : bstInv t) :
    bstInv (insertT t c rest) := by
  induction t, c, rest using insertT.induct with
  | case1 c rest => exact newSpine_bstInv c rest
  | case2 ch l m r e c rest hlt ih =>
    obtain ⟨hl, hr, il, im, ir⟩ := h
    simp only [insertT, if_pos hlt]
    refine ⟨?_, hr, ih il, im, ir⟩
    intro k hk
    rcases (mem_levelKeys_insertT l c rest k).1 hk with rfl | hk2
    · exact hlt
    · exact hl k hk2
  | case3 ch l m r e c rest hnlt hgt ih =>
    obtain ⟨hl, hr, il, im, ir⟩ := h
    simp only [insertT, if_neg hnlt, if_pos hgt]
    refine ⟨hl, ?_, il, im, ih ir⟩
    intro k hk
    rcases (mem_levelKeys_insertT r c rest k).1 hk with rfl | hk2
    · exact hgt
    · exact hr k hk2
  | case4 ch l m r e c hnlt hngt b1 tail ih =>
    obtain ⟨hl, hr, il, im, ir⟩ := h
    simp only [insertT, if_neg hnlt, if_neg hngt]
    exact ⟨hl, hr, il, ih im, ir⟩
  | case5 ch l m r e c hnlt hngt =>
    obtain ⟨hl, hr, il, im, ir⟩ := h
    simp only [insertT, if_neg hnlt, if_neg hngt]
    exact ⟨hl, hr, il, im, ir⟩

theorem tstWords_shape (t : TstNode) :
    ∀ a ∈ tstWords t, ∃ hd tl, a = hd :: tl ∧ hd ∈ levelKeys t := by
  induction t with
  | nilt => simp [tstWords]
  | node ch l m r e ihl ihm ihr =>
    intro a ha
    simp only [tstWords, List.mem_append, List.mem_map] at ha
    rcases ha with ((ha | ha) | ⟨x, hx, rfl⟩) | ha
    · rcases ihl a ha with ⟨hd, tl, rfl, hk⟩
      exact ⟨hd, tl, rfl, by simp [levelKeys, hk]⟩
    · have : a = [ch] := by
        cases e <;> simp_all
      exact ⟨ch, [], this, by simp [levelKeys]⟩
    · exact ⟨ch, x, rfl, by simp [levelKeys]⟩
    · rcases ihr a ha with ⟨hd, tl, rfl, hk⟩
      exact ⟨hd, tl, rfl, by simp [levelKeys, hk]⟩

theorem newSpine_contains (c : Nat) (rest : List Nat) :
    endOf (containsT (newSpine c rest) c rest) = true := by
  induction rest generalizing c with
  | nil => simp [newSpine, containsT, endOf]
  | cons r rs ih =>
    have hstep : containsT (newSpine c (r :: rs)) c (r :: rs)
        = containsT (newSpine r rs) r rs := by
      simp [newSpine, containsT]
    rw [hstep]
    exact ih r

theorem contains_insertT_self (t : TstNode) (c : Nat) (rest : List Nat) :
    endOf (containsT (insertT t c rest) c rest) = true := by
  induction t, c, rest using insertT.induct with
  | case1 c rest => exact newSpine_contains c rest
  | case2 ch l m r e c rest hlt ih =>
    simpa [insertT, containsT, if_pos hlt] using ih
  | case3 ch l m r e c rest hnlt hgt ih =>
    simpa [insertT, containsT, if_neg hnlt, if_pos hgt] using ih
  | case4 ch l m r e c hnlt hngt b1 tail ih =>
    simpa [insertT, containsT, if_neg hnlt, if_neg hngt] using ih
  | case5 ch l m r e c hnlt hngt =>
    simp [insertT, containsT, if_neg hnlt, if_neg hngt, endOf]

theorem tst_contains_mono (t : TstNode) (c2 : Nat) (rest2 : List Nat) :
    ∀ c rest, endOf (containsT t c rest) = true →
      endOf (containsT (insertT t c2 rest2) c rest) = true := by
  induction t, c2, rest2 using insertT.induct with
  | case1 c2 rest2 =>
    intro c rest h
    simp [containsT, endOf] at h
  | case2 ch l m r e c2 rest2 hlt ih =>
    intro c rest h
    simp only [insertT, if_pos hlt]
    rcases Nat.lt_trichotomy c ch with hc | hc | hc
    · simp only [containsT, if_pos hc] at h ⊢
      exact ih c rest h
    · subst hc
      have h1 : ¬c < c := by omega
      simp only [containsT, if_neg h1] at h ⊢
      cases rest with
      | nil => exact h
      | cons r2 rs => exact h
    · have hn : ¬c < ch := by omega
      simp only [containsT, if_neg hn, if_pos hc] at h ⊢
      exact h
  | case3 ch l m r e c2 rest2 hnlt hgt ih =>
    intro c rest h
    simp only [insertT, if_neg hnlt, if_pos hgt]
    rcases Nat.lt_trichotomy c ch with hc | hc | hc
    · simp only [containsT, if_pos hc] at h ⊢
      exact h
    · subst hc
      have h1 : ¬c < c := by omega
      simp only [containsT, if_neg h1] at h ⊢
      cases rest with
      | nil => exact h
      | cons r2 rs => exact h
    · have hn : ¬c < ch := by omega
      simp only [containsT, if_neg hn, if_pos hc] at h ⊢
      exact ih c rest h
  | case4 ch l m r e c2 hnlt hngt b1 tail ih =>
    intro c rest h
    simp only [insertT, if_neg hnlt, if_neg hngt]
    rcases Nat.lt_trichotomy c ch with hc | hc | hc
    · simp only [containsT, if_pos hc] at h ⊢
      exact h
    · subst hc
      have h1 : ¬c < c := by omega
      simp only [containsT, if_neg h1] at h ⊢
      cases rest with
      | nil => exact h
      | cons r2 rs => exact ih r2 rs h
    · have hn : ¬c < ch := by omega
      simp only [containsT, if_neg hn, if_pos hc] at h ⊢
      exact h
  | case5 ch l m r e c2 hnlt hngt =>
    intro c rest h
    simp only [insertT, if_neg hnlt, if_neg hngt]
    rcases Nat.lt_trichotomy c ch with hc | hc | hc
    · simp only [containsT, if_pos hc] at h ⊢
      exact h
    · subst hc
      have h1 : ¬c < c := by omega
      simp only [containsT, if_neg h1] at h ⊢
      cases rest with
      | nil => rfl
      | cons r2 rs => exact h
    · have hn : ¬c < ch := by omega
      simp only [containsT, if_neg hn, if_pos hc] at h ⊢
      exact h

theorem contains_iff_mem (t : TstNode) (h : bstInv t) :
    ∀ c rest, endOf (containsT t c rest) = true ↔ (c :: rest) ∈ tstWords t := by
  induction t with
  | nilt =>
    intro c rest
    simp [containsT, endOf, tstWords]
  | node ch l m r e ihl ihm ihr =>
    obtain ⟨hl, hr, il, im, ir⟩ := h
    intro c rest
    have headL : ∀ a ∈ tstWords l, ∃ hd tl, a = hd :: tl ∧ hd < ch := by
      intro a ha
      rcases tstWords_shape l a ha with ⟨hd, tl, rfl, hk⟩
      exact ⟨hd, tl, rfl, hl hd hk⟩
    have headR : ∀ a ∈ tstWords r, ∃ hd tl, a = hd :: tl ∧ ch < hd := by
      intro a ha
      rcases tstWords_shape r a ha with ⟨hd, tl, rfl, hk⟩
      exact ⟨hd, tl, rfl, hr hd hk⟩
    rcases Nat.lt_trichotomy c ch with hcl | hceq | hcg
    · have hstep : containsT (TstNode.node ch l m r e) c rest = containsT l c rest := by
        simp [containsT, if_pos hcl]
      rw [hstep, ihl il c rest]
      simp only [tstWords, List.mem_append, List.mem_map]
      constructor
      · intro hm
        exact Or.inl (Or.inl (Or.inl hm))
      · rintro (((hm | hm) | ⟨x, hx, hEq⟩) | hm)
        · exact hm
        · have hx2 : (c :: rest) = [ch] := by cases e <;> simp_all
          have : c = ch := by simpa using congrArg (fun l => l.headI) hx2
          omega
        · have : ch = c := by simpa using congrArg (fun l => l.headI) hEq
          omega
        · rcases headR _ hm with ⟨hd, tl, hEq2, hgt⟩
          have : c = hd := by simpa using congrArg (fun l => l.headI) hEq2
          omega
    · subst hceq
      cases rest with
      | nil =>
        have hstep : containsT (TstNode.node c l m r e) c [] = TstNode.node c l m r e := by
          simp [containsT]
        rw [hstep]
        simp only [endOf, tstWords, List.mem_append, List.mem_map]
        constructor
        · intro he
          refine Or.inl (Or.inl (Or.inr ?_))
          simp [he]
        · rintro (((hm | hm) | ⟨x, hx, hEq⟩) | hm)
          · rcases headL _ hm with ⟨hd, tl, hEq2, hlt2⟩
            have : c = hd := by simpa using congrArg (fun l => l.headI) hEq2
            omega
          · cases e with
            | true => rfl
            | false => simp at hm
          · have hx2 : x = [] := by
              have := congrArg (fun l => l.tail) hEq
              simpa using this
            subst hx2
            rcases tstWords_shape m [] hx with ⟨hd, tl, hEq3, _⟩
            simp at hEq3
          · rcases headR _ hm with ⟨hd, tl, hEq2, hgt2⟩
            have : c = hd := by simpa using congrArg (fun l => l.headI) hEq2
            omega
      | cons r2 rs =>
        have hstep : containsT (TstNode.node c l m r e) c (r2 :: rs) = containsT m r2 rs := by
          simp [containsT]
        rw [hstep, ihm im r2 rs]
        simp only [tstWords, List.mem_append, List.mem_map]
        constructor
        · intro hm
          exact Or.inl (Or.inr ⟨r2 :: rs, hm, rfl⟩)
        · rintro (((hm | hm) | ⟨x, hx, hEq⟩) | hm)
          · rcases headL _ hm with ⟨hd, tl, hEq2, hlt2⟩
            have : c = hd := by simpa using congrArg (fun l => l.headI) hEq2
            omega
          · have hx2 : (c :: r2 :: rs) = [c] := by cases e <;> simp_all
            have := congrArg (fun l => l.tail) hx2
            simp at this
          · have hx2 : x = r2 :: rs := by
              have := congrArg (fun l => l.tail) hEq
              simpa using this
            subst hx2
            exact hx
          · rcases headR _ hm with ⟨hd, tl, hEq2, hgt2⟩
            have : c = hd := by simpa using congrArg (fun l => l.headI) hEq2
            omega
    · have hstep : containsT (TstNode.node ch l m r e) c rest = containsT r c rest := by
        have hn : ¬c < ch := by omega
        simp [containsT, if_neg hn, if_pos hcg]
      rw [hstep, ihr ir c rest]
      simp only [tstWords, List.mem_append, List.mem_map]
      constructor
      · intro hm
        exact Or.inr hm
      · rintro (((hm | hm) | ⟨x, hx, hEq⟩) | hm)
        · rcases headL _ hm with ⟨hd, tl, hEq2, hlt2⟩
          have : c = hd := by simpa using congrArg (fun l => l.headI) hEq2
          omega
        · have hx2 : (c :: rest) = [ch] := by cases e <;> simp_all
          have : c = ch := by simpa using congrArg (fun l => l.headI) hx2
          omega
        · have : ch = c := by simpa using congrArg (fun l => l.headI) hEq
          omega
        · exact hm

theorem newSpine_chars (B : Nat) (c : Nat) (rest : List Nat) (hc : c < B)
    (hr : ∀ b ∈ rest, b < B) : charsBounded B (newSpine c rest) := by
  induction rest generalizing c with
  | nil => simpa [newSpine, charsBounded] using hc
  | cons r rs ih =>
    refine ⟨hc, trivial, ?_, trivial⟩
    exact ih r (hr r (by simp)) (fun b hb => hr b (by simp [hb]))

theorem charsBounded_insertT (B : Nat) (t : TstNode) (c : Nat) (rest : List Nat)
    (h : charsBounded B t) (hc : c < B) (hr : ∀ b ∈ rest, b < B) :
    charsBounded B (insertT t c rest) := by
  induction t, c, rest using insertT.induct with
  | case1 c rest => exact newSpine_chars B c rest hc hr
  | case2 ch l m r e c rest hlt ih =>
    obtain ⟨hch, cl, cm, cr⟩ := h
    simp only [insertT, if_pos hlt]
    exact ⟨hch, ih cl hc hr, cm, cr⟩
  | case3 ch l m r e c rest hnlt hgt ih =>
    obtain ⟨hch, cl, cm, cr⟩ := h
    simp only [insertT, if_neg hnlt, if_pos hgt]
    exact ⟨hch, cl, cm, ih cr hc hr⟩
  | case4 ch l m r e c hnlt hngt b1 tail ih =>
    obtain ⟨hch, cl, cm, cr⟩ := h
    simp only [insertT, if_neg hnlt, if_neg hngt]
    exact ⟨hch, cl, ih cm (hr b1 (by simp)) (fun b hb => hr b (by simp [hb])), cr⟩
  | case5 ch l m r e c hnlt hngt =>
    obtain ⟨hch, cl, cm, cr⟩ := h
    simp only [insertT, if_neg hnlt, if_neg hngt]
    exact ⟨hch, cl, cm, cr⟩

theorem tstWords_chars (B : Nat) (t : TstNode) (h : charsBounded B t) :
    ∀ w ∈ tstWords t, ∀ b ∈ w, b < B := by
  induction t with
  | nilt => simp [tstWords]
  | node ch l m r e ihl ihm ihr =>
    obtain ⟨hch, cl, cm, cr⟩ := h
    intro w hw
    simp only [tstWords, List.mem_append, List.mem_map] at hw
    rcases hw with ((hw | hw) | ⟨x, hx, rfl⟩) | hw
    · exact ihl cl w hw
    · have : w = [ch] := by cases e <;> simp_all
      subst this
      intro b hb
      simp at hb
      omega
    · intro b hb
      rcases List.mem_cons.1 hb with rfl | hb2
      · exact hch
      · exact ihm cm x hx b hb2
    · exact ihr cr w hw

theorem goStr_ascii (r : Nat) (h : r < 128) : goStr r = [r] := by
  simp [goStr, h]

theorem goStr_ne_nil (r : Nat) : goStr r ≠ [] := by
  unfold goStr
  split_ifs <;> simp

theorem encodeRunes_nil : encodeRunes [] = [] := rfl

theorem encodeRunes_cons (c : Nat) (w : List Nat) :
    encodeRunes (c :: w) = goStr c ++ encodeRunes w := by
  simp [encodeRunes]

theorem encodeRunes_ascii (w : List Nat) (h : ∀ b ∈ w, b < 128) :
    encodeRunes w = w := by
  induction w with
  | nil => rfl
  | cons c cs ih =>
    rw [encodeRunes_cons, goStr_ascii c (h c (by simp)), ih (fun b hb => h b (by simp [hb]))]
    rfl

theorem goStr_twoByte (r : Nat) (h128 : 128 ≤ r) (h256 : r < 256) :
    goStr r = [0xC0 + r / 64, 0x80 + r % 64] := by
  have h1 : ¬r < 0x80 := by omega
  have h2 : r < 0x800 := by omega
  simp [goStr, h1, h2]

theorem lex_append_left (p u v : List Nat) (h : List.Lex (fun a b : Nat => a < b) u v) :
    List.Lex (fun a b : Nat => a < b) (p ++ u) (p ++ v) := by
  induction p with
  | nil => simpa using h
  | cons x xs ih => exact List.Lex.cons ih

theorem goStr_append_lex (a b : Nat) (ha : a < 256) (hb : b < 256) (hab : a < b)
    (u v : List Nat) : List.Lex (fun x y : Nat => x < y) (goStr a ++ u) (goStr b ++ v) := by
  rcases Nat.lt_or_ge a 128 with ha1 | ha1
  · rcases Nat.lt_or_ge b 128 with hb1 | hb1
    · rw [goStr_ascii a ha1, goStr_ascii b hb1]
      exact List.Lex.rel hab
    · rw [goStr_ascii a ha1, goStr_twoByte b hb1 hb]
      exact List.Lex.rel (by omega)
  · have hb1 : 128 ≤ b := by omega
    rw [goStr_twoByte a ha1 ha, goStr_twoByte b hb1 hb]
    rcases Nat.lt_or_ge (a / 64) (b / 64) with hd | hd
    · exact List.Lex.rel (by omega)
    · have hdeq : a / 64 = b / 64 := by omega
      rw [hdeq]
      refine List.Lex.cons ?_
      have : a % 64 < b % 64 := by omega
      exact List.Lex.rel (by omega)

theorem encodeRunes_lex (w1 w2 : List Nat) (h1 : ∀ b ∈ w1, b < 256)
    (h2 : ∀ b ∈ w2, b < 256) (h : List.Lex (fun a b : Nat => a < b) w1 w2) :
    List.Lex (fun a b : Nat => a < b) (encodeRunes w1) (encodeRunes w2) := by
  induction h with
  | nil =>
    rename_i a l
    rw [encodeRunes_nil, encodeRunes_cons]
    rcases hgn : goStr a with _ | ⟨x, xs⟩
    · exact absurd hgn (goStr_ne_nil a)
    · exact List.Lex.nil
  | cons hlex ih =>
    rename_i a l1 l2
    rw [encodeRunes_cons, encodeRunes_cons]
    refine lex_append_left _ _ _ ?_
    exact ih (fun b hb => h1 b (by simp [hb])) (fun b hb => h2 b (by simp [hb]))
  | rel hr =>
    rename_i a1 l1 a2 l2
    rw [encodeRunes_cons, encodeRunes_cons]
    exact goStr_append_lex a1 a2 (h1 a1 (by simp)) (h2 a2 (by simp)) hr _ _

theorem lex_irrefl (l : List Nat) : ¬List.Lex (fun a b : Nat => a < b) l l := by
  induction l with
  | nil => exact List.Lex.not_nil_right _ _
  | cons x xs ih =>
    intro h
    cases h with
    | cons h2 => exact ih h2
    | rel h2 => omega

theorem nodup_of_pairwise_lex (l : List (List Nat))
    (h : l.Pairwise (fun x y => List.Lex (fun a b : Nat => a < b) x y)) : l.Nodup := by
  refine h.imp ?_
  intro a b hab
  intro heq
  subst heq
  exact lex_irrefl a hab

theorem pairwise_tstWords (t : TstNode) (h : bstInv t) :
    (tstWords t).Pairwise (fun x y => List.Lex (fun a b : Nat => a < b) x y) := by
  induction t with
  | nilt => simp [tstWords]
  | node ch l m r e ihl ihm ihr =>
    obtain ⟨hl, hr, il, im, ir⟩ := h
    simp only [tstWords]
    rw [List.pairwise_append]
    refine ⟨?_, ihr ir, ?_⟩
    · rw [List.pairwise_append]
      refine ⟨?_, ?_, ?_⟩
      · rw [List.pairwise_append]
        refine ⟨ihl il, ?_, ?_⟩
        · cases e <;> simp
        · intro a ha b hb
          have hb2 : b = [ch] := by cases e <;> simp_all
          subst hb2
          rcases tstWords_shape l a ha with ⟨hd, tl, rfl, hk⟩
          exact List.Lex.rel (hl hd hk)
      · rw [List.pairwise_map]
        exact (ihm im).imp (fun hab => List.Lex.cons hab)
      · intro a ha b hb
        rcases List.mem_map.1 hb with ⟨x, hx, rfl⟩
        rcases List.mem_append.1 ha with ha2 | ha2
        · rcases tstWords_shape l a ha2 with ⟨hd, tl, rfl, hk⟩
          exact List.Lex.rel (hl hd hk)
        · have ha3 : a = [ch] := by cases e <;> simp_all
          subst ha3
          refine List.Lex.cons ?_
          rcases tstWords_shape m x hx with ⟨hd, tl, rfl, _⟩
          exact List.Lex.nil
    · intro a ha b hb
      rcases tstWords_shape r b hb with ⟨hd, tl, rfl, hk⟩
      have hgt : ch < hd := hr hd hk
      rcases List.mem_append.1 ha with ha2 | ha2
      · rcases List.mem_append.1 ha2 with ha3 | ha3
        · rcases tstWords_shape l a ha3 with ⟨hd2, tl2, rfl, hk2⟩
          exact List.Lex.rel (by have := hl hd2 hk2; omega)
        · have ha4 : a = [ch] := by cases e <;> simp_all
          subst ha4
          exact List.Lex.rel hgt
      · rcases List.mem_map.1 ha2 with ⟨x, hx, rfl⟩
        exact List.Lex.rel hgt

theorem collectT_eq_map (t : TstNode) :
    ∀ pre, collectT t pre = (tstWords t).map (fun w => pre ++ encodeRunes w) := by
  induction t with
  | nilt => intro pre; simp [collectT, tstWords]
  | node ch l m r e ihl ihm ihr =>
    intro pre
    simp only [collectT, tstWords, List.map_append, ihl, ihm, ihr, List.map_map]
    congr 1
    · congr 1
      · congr 1
        cases e <;> simp [encodeRunes]
      · refine List.map_congr_left ?_
        intro x _
        simp [Function.comp, encodeRunes_cons, List.append_assoc]

theorem tstInsertAll_mem (ws : List (List Nat)) :
    ∀ t u, tstInsertAll t ws = some u →
      ∀ a, a ∈ tstWords u ↔ a ∈ ws ∨ a ∈ tstWords t := by
  induction ws with
  | nil =>
    intro t u h a
    simp only [tstInsertAll] at h
    cases h
    simp
  | cons w ws ih =>
    intro t u h a
    cases w with
    | nil => simp [tstInsertAll, tstInsert1] at h
    | cons c rest =>
      simp only [tstInsertAll, tstInsert1] at h
      rw [ih (insertT t c rest) u h a, mem_tstWords_insertT]
      simp only [List.mem_cons]
      tauto

theorem tstInsertAll_inv (ws : List (List Nat)) :
    ∀ t u, tstInsertAll t ws = some u → bstInv t → bstInv u := by
  induction ws with
  | nil =>
    intro t u h hi
    simp only [tstInsertAll] at h
    cases h
    exact hi
  | cons w ws ih =>
    intro t u h hi
    cases w with
    | nil => simp [tstInsertAll, tstInsert1] at h
    | cons c rest =>
      simp only [tstInsertAll, tstInsert1] at h
      exact ih (insertT t c rest) u h (bstInv_insertT t c rest hi)

theorem tstInsertAll_chars (B : Nat) (ws : List (List Nat)) :
    ∀ t u, tstInsertAll t ws = some u → charsBounded B t →
      (∀ w ∈ ws, ∀ b ∈ w, b < B) → charsBounded B u := by
  induction ws with
  | nil =>
    intro t u h hc _
    simp only [tstInsertAll] at h
    cases h
    exact hc
  | cons w ws ih =>
    intro t u h hc hws
    cases w with
    | nil => simp [tstInsertAll, tstInsert1] at h
    | cons c rest =>
      simp only [tstInsertAll, tstInsert1] at h
      refine ih (insertT t c rest) u h ?_ (fun v hv b hb => hws v (by simp [hv]) b hb)
      exact charsBounded_insertT B t c rest hc (hws (c :: rest) (by simp) c (by simp))
        (fun b hb => hws (c :: rest) (by simp) b (by simp [hb]))

theorem getPrefT_inv (t : TstNode) (h : bstInv t) :
    ∀ c rest, bstInv (getPrefT t c rest) := by
  induction t with
  | nilt => intro c rest; simp [getPrefT, bstInv]
  | node ch l m r e ihl ihm ihr =>
    obtain ⟨hl, hr, il, im, ir⟩ := h
    intro c rest
    rcases Nat.lt_trichotomy c ch with hcl | hceq | hcg
    · simpa [getPrefT, if_pos hcl] using ihl il c rest
    · subst hceq
      cases rest with
      | nil =>
        simp only [getPrefT, lt_self_iff_false, if_false]
        exact ⟨hl, hr, il, im, ir⟩
      | cons r2 rs =>
        simpa [getPrefT] using ihm im r2 rs
    · have hn : ¬c < ch := by omega
      simpa [getPrefT, if_neg hn, if_pos hcg] using ihr ir c rest

theorem getPrefT_chars (B : Nat) (t : TstNode) (h : charsBounded B t) :
    ∀ c rest, charsBounded B (getPrefT t c rest) := by
  induction t with
  | nilt => intro c rest; simp [getPrefT, charsBounded]
  | node ch l m r e ihl ihm ihr =>
    obtain ⟨hch, cl, cm, cr⟩ := h
    intro c rest
    rcases Nat.lt_trichotomy c ch with hcl | hceq | hcg
    · simpa [getPrefT, if_pos hcl] using ihl cl c rest
    · subst hceq
      cases rest with
      | nil =>
        simp only [getPrefT, lt_self_iff_false, if_false]
        exact ⟨hch, cl, cm, cr⟩
      | cons r2 rs =>
        simpa [getPrefT] using ihm cm r2 rs
    · have hn : ¬c < ch := by omega
      simpa [getPrefT, if_neg hn, if_pos hcg] using ihr cr c rest

theorem decodeFirst_ascii (b0 : Nat) (rest : List Nat) (h : b0 < 128) :
    decodeFirst b0 rest = (b0, 0) := by
  simp [decodeFirst, h]

theorem utf8DecodeAux_ascii (fuel : Nat) :
    ∀ l : List Nat, l.length ≤ fuel → (∀ b ∈ l, b < 128) → utf8DecodeAux fuel l = l := by
  induction fuel with
  | zero =>
    intro l hlen _
    cases l with
    | nil => rfl
    | cons b bs => simp at hlen
  | succ fuel ih =>
    intro l hlen hb
    cases l with
    | nil => rfl
    | cons b bs =>
      rw [show utf8DecodeAux (fuel + 1) (b :: bs)
          = (decodeFirst b bs).1 :: utf8DecodeAux fuel (bs.drop (decodeFirst b bs).2) from rfl]
      rw [decodeFirst_ascii b bs (hb b (by simp))]
      simp only [List.drop_zero]
      rw [ih bs (by simpa using Nat.le_of_succ_le_succ (by simpa using hlen))
        (fun x hx => hb x (by simp [hx]))]

theorem utf8Decode_ascii (l : List Nat) (h : ∀ b ∈ l, b < 128) : utf8Decode l = l :=
  utf8DecodeAux_ascii l.length l le_rfl h

/-! ### Lemmas about the trie -/

theorem getChild_setChild_same : ∀ (cs : TrieChildren) (r : Nat) (v : TrieNode),
    getChild (setChild cs r v) r = some v
  | .nil, r, v => by simp [setChild, getChild]
  | .cons k c rest, r, v => by
    by_cases hk : k = r
    · subst hk
      simp [setChild, getChild]
    · simp [setChild, getChild, hk, getChild_setChild_same rest r v]

theorem getChild_setChild_ne : ∀ (cs : TrieChildren) (r k : Nat) (v : TrieNode),
    k ≠ r → getChild (setChild cs r v) k = getChild cs k
  | .nil, r, k, v, h => by
    have hne : ¬r = k := fun hc => h hc.symm
    simp [setChild, getChild, hne]
  | .cons k2 c rest, r, k, v, h => by
    by_cases hk2 : k2 = r
    · subst hk2
      have hne : k2 ≠ k := fun hc => h hc.symm
      simp [setChild, getChild, hne]
    · by_cases hk3 : k2 = k
      · subst hk3
        simp [setChild, getChild, hk2]
      · simp [setChild, getChild, hk2, hk3, getChild_setChild_ne rest r k v h]

theorem trieContainsR_empty (w : List Nat) :
    trieContainsR (TrieNode.mk .nil false) w = false := by
  cases w <;> simp [trieContainsR, getChild]

theorem trie_contains_insert (v : List Nat) :
    ∀ (n : TrieNode) (w : List Nat),
      trieContainsR (trieInsertR n v) w = true ↔ w = v ∨ trieContainsR n w = true := by
  induction v with
  | nil =>
    rintro ⟨cs, e⟩ w
    cases w with
    | nil => simp [trieInsertR, trieContainsR]
    | cons r rs => simp [trieInsertR, trieContainsR]
  | cons a as ih =>
    rintro ⟨cs, e⟩ w
    cases w with
    | nil =>
      rcases hg : getChild cs a with _ | c <;>
        simp [trieInsertR, hg, trieContainsR]
    | cons r rs =>
      by_cases hra : r = a
      · subst hra
        rcases hg : getChild cs r with _ | c
        · simp only [trieInsertR, hg, trieContainsR, getChild_setChild_same, ih]
          rw [trieContainsR_empty]
          simp
        · simp only [trieInsertR, hg, trieContainsR, getChild_setChild_same, ih]
          simp
      · have hra2 : a ≠ r := fun hc => hra hc.symm
        rcases hg : getChild cs a with _ | c
        · simp only [trieInsertR, hg, trieContainsR,
            getChild_setChild_ne cs a r _ hra]
          simp [hra]
        · simp only [trieInsertR, hg, trieContainsR,
            getChild_setChild_ne cs a r _ hra]
          simp [hra]

theorem wordsC_shape : ∀ (cs : TrieChildren) (a : List Nat), a ∈ wordsC cs →
    ∃ hd tl, a = hd :: tl ∧ hd ∈ keysC cs
  | .nil, a, ha => by simp [wordsC] at ha
  | .cons r c rest, a, ha => by
    simp only [wordsC] at ha
    rcases List.mem_append.1 ha with h | h
    · rcases List.mem_map.1 h with ⟨x, hx, rfl⟩
      exact ⟨r, x, rfl, by simp [keysC]⟩
    · rcases wordsC_shape rest a h with ⟨hd, tl, rfl, hk⟩
      exact ⟨hd, tl, rfl, by simp [keysC, hk]⟩

theorem nil_not_mem_wordsC (cs : TrieChildren) : ([] : List Nat) ∉ wordsC cs := by
  intro h
  rcases wordsC_shape cs [] h with ⟨hd, tl, heq, _⟩
  simp at heq

theorem mem_wordsC_iff : ∀ (cs : TrieChildren), (keysC cs).Nodup →
    ∀ (r : Nat) (x : List Nat),
      ((r :: x) ∈ wordsC cs ↔ ∃ c, getChild cs r = some c ∧ x ∈ wordsT c)
  | .nil, _, r, x => by simp [wordsC, getChild]
  | .cons k c rest, hnd, r, x => by
    have hk : k ∉ keysC rest := by
      simpa [keysC] using (List.nodup_cons.1 (by simpa [keysC] using hnd)).1
    have hnd2 : (keysC rest).Nodup := (List.nodup_cons.1 (by simpa [keysC] using hnd)).2
    by_cases hkr : k = r
    · subst hkr
      simp only [wordsC, List.mem_append, List.mem_map, getChild, if_pos rfl]
      constructor
      · rintro (⟨y, hy, hEq⟩ | h)
        · have : y = x := by
            have := congrArg (fun l => l.tail) hEq
            simpa using this
          subst this
          exact ⟨c, rfl, hy⟩
        · rcases wordsC_shape rest _ h with ⟨hd, tl, hEq2, hk2⟩
          have : k = hd := by simpa using congrArg (fun l => l.headI) hEq2
          subst this
          exact absurd hk2 hk
      · rintro ⟨c2, hc2, hx⟩
        cases hc2
        exact Or.inl ⟨x, hx, rfl⟩
    · simp only [wordsC, List.mem_append, List.mem_map, getChild, if_neg hkr]
      rw [mem_wordsC_iff rest hnd2 r x]
      constructor
      · rintro (⟨y, hy, hEq⟩ | h)
        · have : k = r := by simpa using congrArg (fun l => l.headI) hEq
          exact absurd this hkr
        · exact h
      · intro h
        exact Or.inr h

theorem uniqN_of_getChild : ∀ (cs : TrieChildren), uniqAll cs →
    ∀ (r : Nat) (c : TrieNode), getChild cs r = some c → uniqN c
  | .nil, _, r, c, h => by simp [getChild] at h
  | .cons k c2 rest, hu, r, c, h => by
    by_cases hkr : k = r
    · subst hkr
      simp [getChild] at h
      exact h ▸ hu.1
    · simp only [getChild, if_neg hkr] at h
      exact uniqN_of_getChild rest hu.2 r c h

theorem mem_keysC_setChild : ∀ (cs : TrieChildren) (r : Nat) (v : TrieNode) (k : Nat),
    k ∈ keysC (setChild cs r v) ↔ k = r ∨ k ∈ keysC cs
  | .nil, r, v, k => by simp [setChild, keysC]
  | .cons k2 c rest, r, v, k => by
    by_cases hk2 : k2 = r
    · subst hk2
      simp [setChild, keysC]
    · simp only [setChild, if_neg hk2, keysC, List.mem_cons,
        mem_keysC_setChild rest r v k]
      tauto

theorem keysC_setChild_nodup : ∀ (cs : TrieChildren) (r : Nat) (v : TrieNode),
    (keysC cs).Nodup → (keysC (setChild cs r v)).Nodup
  | .nil, r, v, _ => by simp [setChild, keysC]
  | .cons k c rest, r, v, hnd => by
    have h1 : k ∉ keysC rest := by
      simpa [keysC] using (List.nodup_cons.1 (by simpa [keysC] using hnd)).1
    have h2 : (keysC rest).Nodup := (List.nodup_cons.1 (by simpa [keysC] using hnd)).2
    by_cases hk : k = r
    · subst hk
      simp only [setChild, if_pos rfl, keysC]
      exact List.nodup_cons.2 ⟨by simpa [keysC] using h1, by simpa [keysC] using h2⟩
    · simp only [setChild, if_neg hk, keysC]
      refine List.nodup_cons.2 ⟨?_, keysC_setChild_nodup rest r v h2⟩
      rw [mem_keysC_setChild rest r v k]
      rintro (rfl | hmem)
      · exact hk rfl
      · exact h1 hmem

theorem uniqAll_setChild : ∀ (cs : TrieChildren) (r : Nat) (v : TrieNode),
    uniqAll cs → uniqN v → uniqAll (setChild cs r v)
  | .nil, r, v, _, hv => by
    simp only [setChild]
    exact ⟨hv, trivial⟩
  | .cons k c rest, r, v, hu, hv => by
    by_cases hk : k = r
    · subst hk
      simp only [setChild, if_pos rfl]
      exact ⟨hv, hu.2⟩
    · simp only [setChild, if_neg hk]
      exact ⟨hu.1, uniqAll_setChild rest r v hu.2 hv⟩

theorem uniqN_empty : uniqN (TrieNode.mk .nil false) :=
  ⟨by simp [keysC], trivial⟩

theorem uniqN_insert (w : List Nat) : ∀ (n : TrieNode), uniqN n →
    uniqN (trieInsertR n w) := by
  induction w with
  | nil =>
    rintro ⟨cs, e⟩ hu
    exact hu
  | cons r rs ih =>
    rintro ⟨cs, e⟩ hu
    rcases hg : getChild cs r with _ | c
    · simp only [trieInsertR, hg]
      exact ⟨keysC_setChild_nodup cs r _ hu.1,
        uniqAll_setChild cs r _ hu.2 (ih _ uniqN_empty)⟩
    · simp only [trieInsertR, hg]
      exact ⟨keysC_setChild_nodup cs r _ hu.1,
        uniqAll_setChild cs r _ hu.2 (ih _ (uniqN_of_getChild cs hu.2 r c hg))⟩

theorem wordsT_empty : wordsT (TrieNode.mk .nil false) = [] := by
  simp [wordsT, wordsC]

theorem mem_wordsT_insert (w : List Nat) : ∀ (n : TrieNode), uniqN n →
    ∀ a, a ∈ wordsT (trieInsertR n w) ↔ a = w ∨ a ∈ wordsT n := by
  induction w with
  | nil =>
    rintro ⟨cs, e⟩ _ a
    cases e <;> simp [trieInsertR, wordsT]
  | cons r rs ih =>
    rintro ⟨cs, e⟩ hu a
    have hnd : (keysC cs).Nodup := hu.1
    rcases a with _ | ⟨hd, tl⟩
    · -- the empty word sits in neither children list
      have h1 : ([] : List Nat) ∉ wordsC (setChild cs r (trieInsertR
          (match getChild cs r with
           | some c => c
           | none => TrieNode.mk .nil false) rs)) := nil_not_mem_wordsC _
      rcases hg : getChild cs r with _ | c <;>
        simp_all [trieInsertR, hg, wordsT, nil_not_mem_wordsC]
    · by_cases hhd : hd = r
      · subst hhd
        rcases hg : getChild cs hd with _ | c
        · have hnd2 := keysC_setChild_nodup cs hd (trieInsertR (TrieNode.mk .nil false) rs) hnd
          simp only [trieInsertR, hg, wordsT, List.mem_append,
            mem_wordsC_iff _ hnd2 hd tl, mem_wordsC_iff _ hnd hd tl,
            getChild_setChild_same, hg, Option.some.injEq, exists_eq_left,
            exists_eq_left', ih _ uniqN_empty, wordsT_empty, List.cons.injEq,
            List.not_mem_nil, or_false, false_and, exists_false, true_and]
          tauto
        · have huc : uniqN c := uniqN_of_getChild cs hu.2 hd c hg
          have hnd2 := keysC_setChild_nodup cs hd (trieInsertR c rs) hnd
          simp only [trieInsertR, hg, wordsT, List.mem_append,
            mem_wordsC_iff _ hnd2 hd tl, mem_wordsC_iff _ hnd hd tl,
            getChild_setChild_same, hg, Option.some.injEq, exists_eq_left,
            exists_eq_left', ih _ huc, List.cons.injEq, true_and]
          tauto
      · have hne : (hd :: tl) ≠ r :: rs := by
          intro hc
          exact hhd (by simpa using congrArg (fun l => l.headI) hc)
        rcases hg : getChild cs r with _ | c
        · have hnd2 := keysC_setChild_nodup cs r (trieInsertR (TrieNode.mk .nil false) rs) hnd
          simp only [trieInsertR, hg, wordsT, List.mem_append,
            mem_wordsC_iff _ hnd2 hd tl, mem_wordsC_iff _ hnd hd tl,
            getChild_setChild_ne cs r hd _ hhd, hne, false_or]
        · have hnd2 := keysC_setChild_nodup cs r (trieInsertR c rs) hnd
          simp only [trieInsertR, hg, wordsT, List.mem_append,
            mem_wordsC_iff _ hnd2 hd tl, mem_wordsC_iff _ hnd hd tl,
            getChild_setChild_ne cs r hd _ hhd, hne, false_or]

mutual
theorem wordsT_nodup : ∀ (n : TrieNode), uniqN n → (wordsT n).Nodup
  | .mk cs e, hu => by
    have hc := wordsC_nodup cs hu.2 hu.1
    cases e
    · simpa [wordsT] using hc
    · simpa [wordsT] using List.nodup_cons.2 ⟨nil_not_mem_wordsC cs, hc⟩
theorem wordsC_nodup : ∀ (cs : TrieChildren), uniqAll cs → (keysC cs).Nodup →
    (wordsC cs).Nodup
  | .nil, _, _ => by simp [wordsC]
  | .cons r c rest, hu, hk => by
    have h0 := List.nodup_cons.1 (by simpa [keysC] using hk)
    simp only [wordsC]
    rw [List.Nodup, List.pairwise_append]
    refine ⟨?_, wordsC_nodup rest hu.2 h0.2, ?_⟩
    · refine List.Nodup.map ?_ (wordsT_nodup c hu.1)
      intro a b hab
      simpa using hab
    · intro a ha b hb
      rcases List.mem_map.1 ha with ⟨x, hx, rfl⟩
      rcases wordsC_shape rest b hb with ⟨hd, tl, rfl, hkmem⟩
      intro hEq
      have : r = hd := by simpa using congrArg (fun l => l.headI) hEq
      subst this
      exact h0.1 hkmem
end

mutual
theorem findAllB_eq : ∀ (n : TrieNode) (pre : List Nat),
    findAllB n pre = (wordsT n).map (fun w => pre ++ encodeRunes w)
  | .mk cs e, pre => by
    cases e <;>
      simp [findAllB, wordsT, findAllListB_eq cs pre, encodeRunes]
theorem findAllListB_eq : ∀ (cs : TrieChildren) (pre : List Nat),
    findAllListB cs pre = (wordsC cs).map (fun w => pre ++ encodeRunes w)
  | .nil, pre => by simp [findAllListB, wordsC]
  | .cons r c rest, pre => by
    simp only [findAllListB, wordsC, List.map_append, List.map_map,
      findAllB_eq c (pre ++ goStr r), findAllListB_eq rest pre]
    congr 1
    refine List.map_congr_left ?_
    intro x _
    simp [Function.comp, encodeRunes_cons, List.append_assoc]
end

theorem uniqN_newTrie : uniqN newTrie :=
  uniqN_empty

theorem trieInsertAllR_uniq (ws : List (List Nat)) :
    ∀ t, uniqN t → uniqN (trieInsertAllR t ws) := by
  induction ws with
  | nil => intro t hu; exact hu
  | cons w ws ih =>
    intro t hu
    exact ih (trieInsertR t w) (uniqN_insert w t hu)

theorem trieInsertAllR_mem (ws : List (List Nat)) :
    ∀ t, uniqN t → ∀ a, a ∈ wordsT (trieInsertAllR t ws) ↔ a ∈ ws ∨ a ∈ wordsT t := by
  induction ws with
  | nil =>
    intro t _ a
    simp [trieInsertAllR]
  | cons w ws ih =>
    intro t hu a
    have hstep : trieInsertAllR t (w :: ws) = trieInsertAllR (trieInsertR t w) ws := rfl
    rw [hstep, ih (trieInsertR t w) (uniqN_insert w t hu) a,
      mem_wordsT_insert w t hu a]
    simp only [List.mem_cons]
    tauto

theorem trieInsertAllR_contains (ws : List (List Nat)) :
    ∀ t w, trieContainsR (trieInsertAllR t ws) w = true ↔
      w ∈ ws ∨ trieContainsR t w = true := by
  induction ws with
  | nil =>
    intro t w
    simp [trieInsertAllR]
  | cons v ws ih =>
    intro t w
    have hstep : trieInsertAllR t (v :: ws) = trieInsertAllR (trieInsertR t v) ws := rfl
    rw [hstep, ih (trieInsertR t v) w, trie_contains_insert v t w]
    simp only [List.mem_cons]
    tauto

theorem trieInsertAllB_ascii (ws : List (List Nat)) (h : ∀ w ∈ ws, ∀ b ∈ w, b < 128) :
    ∀ t, trieInsertAllB t ws = trieInsertAllR t ws := by
  induction ws with
  | nil => intro t; rfl
  | cons w ws ih =>
    intro t
    have hstep : trieInsertAllB t (w :: ws) = trieInsertAllB (trieInsertB t w) ws := rfl
    have hstep2 : trieInsertAllR t (w :: ws) = trieInsertAllR (trieInsertR t w) ws := rfl
    rw [hstep, hstep2, ih (fun v hv b hb => h v (by simp [hv]) b hb)]
    unfold trieInsertB
    rw [utf8Decode_ascii w (fun b hb => h w (by simp) b hb)]

theorem mem_wordsC_iff_wordsT (cs : TrieChildren) (e : Bool) (a : List Nat) :
    a ∈ wordsC cs ↔ a ∈ wordsT (TrieNode.mk cs e) ∧ a ≠ [] := by
  constructor
  · intro ha
    refine ⟨by cases e <;> simp [wordsT, ha], ?_⟩
    intro hnil
    subst hnil
    exact nil_not_mem_wordsC cs ha
  · rintro ⟨ha, hne⟩
    cases e <;> simp only [wordsT, List.mem_append] at ha
    · simpa using ha
    · rcases (by simpa using ha : a = [] ∨ a ∈ wordsC cs) with rfl | h
      · exact absurd rfl hne
      · exact h

theorem trieListContentsB_eq (t : TrieNode) :
    trieListContentsB t = (wordsC t.children).map encodeRunes := by
  rw [trieListContentsB, findAllListB_eq t.children []]
  refine List.map_congr_left ?_
  intro x _
  simp

theorem mem_wordsC_children (t : TrieNode) (a : List Nat) :
    a ∈ wordsC t.children ↔ a ∈ wordsT t ∧ a ≠ [] := by
  rcases t with ⟨cs, e⟩
  exact mem_wordsC_iff_wordsT cs e a

theorem wordsC_children_nodup (t : TrieNode) (hu : uniqN t) :
    (wordsC t.children).Nodup := by
  rcases t with ⟨cs, e⟩
  exact wordsC_nodup cs hu.2 hu.1

theorem tstInsertAll_no_nil (ws : List (List Nat)) :
    ∀ t u, tstInsertAll t ws = some u → ([] : List Nat) ∉ ws := by
  induction ws with
  | nil => intro t u _; simp
  | cons w ws ih =>
    intro t u h
    cases w with
    | nil => simp [tstInsertAll, tstInsert1] at h
    | cons c rest =>
      simp only [tstInsertAll, tstInsert1] at h
      simp only [List.mem_cons]
      rintro (hc | hmem)
      · simp at hc
      · exact ih (insertT t c rest) u h hmem

theorem collect_pairwise (t : TstNode) (hinv : bstInv t) (hch : charsBounded 256 t)
    (pre : List Nat) : (collectT t pre).Pairwise lexLt := by
  rw [collectT_eq_map t pre, List.pairwise_map]
  refine (pairwise_tstWords t hinv).imp_of_mem ?_
  intro a b ha hb hab
  exact lex_append_left pre _ _ (encodeRunes_lex a b
    (tstWords_chars 256 t hch a ha) (tstWords_chars 256 t hch b hb) hab)

/-! ### The claims -/

/-- **C1.**  The spec requires, for every backend, that `Autocomplete(w)`
include `w` itself whenever `w` was inserted.  The trie satisfies this (its
collection checks the prefix node's own end flag), but the ternary search
tree's `Autocomplete` collects only from the prefix node's `Mid` subtree
and never consults the prefix node's `IsEnd` flag, so an inserted word is
omitted from its own completions: after inserting "hello"
(bytes 104 101 108 108 111), the trie returns ["hello"] but the TST
returns []. -/
theorem c1_tst_autocomplete_omits_inserted_word :
    trieRunAuto [[104, 101, 108, 108, 111]] [104, 101, 108, 108, 111]
        = [[104, 101, 108, 108, 111]] ∧
      tstRunAuto [[104, 101, 108, 108, 111]] [104, 101, 108, 108, 111] = some [] := by
  constructor
  · rfl
  · rfl

/-- **C2.**  The spec requires empty-string calls not to panic on either
backend.  The trie indeed handles the empty word (no indexing: `Insert("")`
marks the root, `Contains("")` reads the root flag, `Autocomplete("")`
collects from the root).  But the ternary search tree evaluates `word[0]`
before any length or nil check, so `Insert("")` and `Contains("")` panic
with an index-out-of-range error, and `Autocomplete("")` panics whenever
the root is non-nil (e.g. after `Clear()`); the `none` results below are
the panics. -/
theorem c2_empty_string_behavior :
    tstInsert1 TstNode.nilt [] = none ∧
      tstContains1 TstNode.nilt [] = none ∧
      tstAutocomplete1 (tstClear TstNode.nilt) [] = none ∧
      trieInsertB newTrie [] = TrieNode.mk .nil true ∧
      trieContainsB newTrie [] = false ∧
      trieAutocompleteB newTrie [] = [] :=
  ⟨rfl, rfl, rfl, rfl, rfl, rfl⟩

/-- **C3, counterexample.**  As stated, `ListContents` does not always
return exactly the inserted set: the trie omits the empty word (its
`ListContents` never consults the root's end flag), and the ternary search
tree mangles multi-byte characters — inserting "é" (bytes 195 169) yields
the word "Ã©" (bytes 195 131 194 169), because each stored byte is
re-encoded through UTF-8 by `prefix + string(node.Char)`. -/
theorem c3_counterexample :
    trieRunList [[]] = [] ∧
      tstRunList [[195, 169]] = some [[195, 131, 194, 169]] := by
  constructor
  · rfl
  · rfl

/-- **C3, amended.**  For every set of distinct, non-empty words of
single-byte (ASCII) characters, inserted in any order, `ListContents`
of either backend returns exactly that set (a permutation of it). -/
theorem c3_list_contents_exact (ws : List (List Nat)) (hnd : ws.Nodup)
    (hne : ∀ w ∈ ws, w ≠ []) (hascii : ∀ w ∈ ws, ∀ b ∈ w, b < 128) :
    List.Perm (trieRunList ws) ws ∧
      (∀ u, tstInsertAll TstNode.nilt ws = some u →
        List.Perm (tstListContents u) ws) := by
  constructor
  · rw [trieRunList, trieInsertAllB_ascii ws hascii newTrie]
    have hu : uniqN (trieInsertAllR newTrie ws) :=
      trieInsertAllR_uniq ws newTrie uniqN_newTrie
    have hmem : ∀ a, a ∈ wordsC (trieInsertAllR newTrie ws).children ↔ a ∈ ws := by
      intro a
      rw [mem_wordsC_children, trieInsertAllR_mem ws newTrie uniqN_newTrie a,
        show wordsT newTrie = [] from rfl]
      simp only [List.not_mem_nil, or_false]
      constructor
      · exact fun h => h.1
      · intro h
        exact ⟨h, hne a h⟩
    have hndC : (wordsC (trieInsertAllR newTrie ws).children).Nodup :=
      wordsC_children_nodup _ hu
    have hmapid : (wordsC (trieInsertAllR newTrie ws).children).map encodeRunes
        = wordsC (trieInsertAllR newTrie ws).children := by
      have := List.map_congr_left (l := wordsC (trieInsertAllR newTrie ws).children)
        (f := encodeRunes) (g := id) ?_
      · simpa using this
      · intro a ha
        exact encodeRunes_ascii a (hascii a ((hmem a).1 ha))
    rw [trieListContentsB_eq, hmapid]
    exact (List.perm_ext_iff_of_nodup hndC hnd).2 hmem
  · intro u hu
    have hinv : bstInv u := tstInsertAll_inv ws TstNode.nilt u hu trivial
    have hmem : ∀ a, a ∈ tstWords u ↔ a ∈ ws := by
      intro a
      rw [tstInsertAll_mem ws TstNode.nilt u hu a]
      simp [tstWords]
    have hndT : (tstWords u).Nodup :=
      nodup_of_pairwise_lex _ (pairwise_tstWords u hinv)
    have hmapid : (tstWords u).map (fun w => [] ++ encodeRunes w) = tstWords u := by
      have := List.map_congr_left (l := tstWords u)
        (f := fun w => [] ++ encodeRunes w) (g := id) ?_
      · simpa using this
      · intro a ha
        simp only [List.nil_append, id]
        exact encodeRunes_ascii a (hascii a ((hmem a).1 ha))
    rw [tstListContents, collectT_eq_map u [], hmapid]
    exact (List.perm_ext_iff_of_nodup hndT hnd).2 hmem

/-- **C4, counterexample.**  The ternary backend's `Clear()` installs a
zero-value sentinel node (`&tstNode{}`) rather than a nil root, so a
subsequent `Autocomplete("")` panics (`getPrefixNode` indexes `prefix[0]`
past the nil check), whereas on a freshly constructed empty store (nil
root) the same call returns the empty sequence — the post-`Clear` store is
not observationally identical to a fresh one. -/
theorem c4_counterexample :
    tstInsertAll TstNode.nilt [[97]] = some (TstNode.node 97 .nilt .nilt .nilt true) ∧
      tstAutocomplete1 (tstClear (TstNode.node 97 .nilt .nilt .nilt true)) [] = none ∧
      tstAutocomplete1 TstNode.nilt [] = some [] :=
  ⟨rfl, rfl, rfl⟩

/-- **C4, amended.**  After `Clear()`, for every *non-empty* argument the
store behaves exactly like a freshly constructed empty store:
`ListContents()` is empty, `Contains(w)` is false (and agrees with the
fresh store), and `Autocomplete(p)` is empty (and agrees with the fresh
store); the trie's `Clear` even produces a root literally equal to a fresh
one.  Only the ternary backend's empty-prefix `Autocomplete` distinguishes
a cleared store (panic) from a fresh store (empty result). -/
theorem c4_clear_behavior :
    (∀ t : TrieNode, trieClearB t = newTrie) ∧
      (∀ t : TstNode, tstListContents (tstClear t) = []) ∧
      (∀ (t : TstNode) (w : List Nat), w ≠ [] →
        tstContains1 (tstClear t) w = some false ∧
          tstContains1 (tstClear t) w = tstContains1 TstNode.nilt w) ∧
      (∀ (t : TstNode) (p : List Nat), p ≠ [] →
        tstAutocomplete1 (tstClear t) p = some [] ∧
          tstAutocomplete1 TstNode.nilt p = some []) := by
  refine ⟨fun t => rfl, fun t => rfl, ?_, ?_⟩
  · intro t w hw
    cases w with
    | nil => exact absurd rfl hw
    | cons c rest =>
      refine ⟨?_, ?_⟩ <;>
        cases c with
        | zero => cases rest <;> rfl
        | succ n => simp [tstClear, tstContains1, containsT, endOf]
  · intro t p hp
    cases p with
    | nil => exact absurd rfl hp
    | cons c rest =>
      refine ⟨?_, rfl⟩
      cases c with
      | zero => cases rest <;> rfl
      | succ n => simp [tstClear, tstAutocomplete1, getPrefT]

/-- Witness for the amended C4 at concrete inputs. -/
theorem c4_clear_behavior_witness :
    tstContains1 (tstClear TstNode.nilt) [97] = some false ∧
      tstAutocomplete1 (tstClear TstNode.nilt) [97] = some [] :=
  ⟨(c4_clear_behavior.2.2.1 TstNode.nilt [97] (by decide)).1,
   (c4_clear_behavior.2.2.2 TstNode.nilt [97] (by decide)).1⟩

/-- **C5.**  The backends are not set-equal on the same insertion
sequence: for `Autocomplete`, the ternary tree omits the prefix itself
(insert "hello", complete "hello": trie {"hello"}, TST {}); and for
`ListContents`, the ternary tree re-encodes stored bytes ("é", bytes
195 169, comes back as bytes 195 131 194 169, while the trie returns it
intact). -/
theorem c5_backends_disagree :
    trieRunAuto [[104, 101, 108, 108, 111]] [104, 101, 108, 108, 111]
        = [[104, 101, 108, 108, 111]] ∧
      tstRunAuto [[104, 101, 108, 108, 111]] [104, 101, 108, 108, 111] = some [] ∧
      trieRunList [[195, 169]] = [[195, 169]] ∧
      tstRunList [[195, 169]] = some [[195, 131, 194, 169]] :=
  ⟨rfl, rfl, rfl, rfl⟩

/-- **C6.**  On both backends, `Contains(w)` is true iff `w` was
previously inserted; in particular any strict prefix of an inserted word
that was not itself inserted answers false.  For the trie, words are the
rune sequences the `range` loop walks; for the ternary tree, the byte
sequences.  The ternary side's hypothesis `tstInsertAll … = some u`
records that every inserted word was non-empty (empty insertion panics). -/
theorem c6_contains_iff_inserted :
    (∀ (ws : List (List Nat)) (w : List Nat),
      trieContainsR (trieInsertAllR newTrie ws) w = true ↔ w ∈ ws) ∧
      (∀ (ws : List (List Nat)) (u : TstNode), tstInsertAll TstNode.nilt ws = some u →
        ∀ w, tstContains1 u w = some true ↔ w ∈ ws) := by
  constructor
  · intro ws w
    rw [trieInsertAllR_contains ws newTrie w,
      show trieContainsR newTrie w = false from trieContainsR_empty w]
    simp
  · intro ws u hu w
    cases w with
    | nil =>
      simp only [tstContains1]
      constructor
      · intro h
        cases h
      · intro hmem
        exact absurd hmem (tstInsertAll_no_nil ws TstNode.nilt u hu)
    | cons c rest =>
      simp only [tstContains1, Option.some.injEq]
      rw [contains_iff_mem u (tstInsertAll_inv ws TstNode.nilt u hu trivial) c rest,
        tstInsertAll_mem ws TstNode.nilt u hu (c :: rest)]
      simp [tstWords]

/-- Witness for C6 at a concrete store: "hello" inserted, "hello" found,
"hell" (a strict prefix) not found. -/
theorem c6_contains_iff_inserted_witness :
    (trieContainsR (trieInsertAllR newTrie [[104, 101, 108, 108, 111]])
        [104, 101, 108, 108] = true ↔
      [104, 101, 108, 108] ∈ [[104, 101, 108, 108, 111]]) ∧
      (tstContains1 (insertT TstNode.nilt 104 [101, 108, 108, 111])
          [104, 101, 108, 108, 111] = some true ↔
        [104, 101, 108, 108, 111] ∈ [[104, 101, 108, 108, 111]]) :=
  ⟨c6_contains_iff_inserted.1 [[104, 101, 108, 108, 111]] [104, 101, 108, 108],
   c6_contains_iff_inserted.2 [[104, 101, 108, 108, 111]]
     (insertT TstNode.nilt 104 [101, 108, 108, 111]) rfl [104, 101, 108, 108, 111]⟩

/-- **C7.**  The spec demands a stable (deterministic) output order for a
fixed backend and insertion history, but the trie's collection iterates a
Go `map`, whose iteration order is deliberately randomized between range
loops.  Below, the two association lists represent the *same* map state
(identical `getChild` lookups, same key set) for a store holding `{"a",
"b"}`, yet `ListContents()` returns ["a","b"] under one iteration order
and ["b","a"] under the other — the output order is not determined by the
store's state.  (The ternary backend's traversal is order-determined; the
claim fails only for the trie.) -/
theorem c7_trie_output_order_not_map_determined :
    (∀ r : Nat,
      getChild (TrieChildren.cons 97 (TrieNode.mk .nil true)
          (TrieChildren.cons 98 (TrieNode.mk .nil true) .nil)) r
        = getChild (TrieChildren.cons 98 (TrieNode.mk .nil true)
            (TrieChildren.cons 97 (TrieNode.mk .nil true) .nil)) r) ∧
      List.Perm
        (keysC (TrieChildren.cons 97 (TrieNode.mk .nil true)
          (TrieChildren.cons 98 (TrieNode.mk .nil true) .nil)))
        (keysC (TrieChildren.cons 98 (TrieNode.mk .nil true)
          (TrieChildren.cons 97 (TrieNode.mk .nil true) .nil))) ∧
      trieListContentsB (TrieNode.mk (TrieChildren.cons 97 (TrieNode.mk .nil true)
          (TrieChildren.cons 98 (TrieNode.mk .nil true) .nil)) false)
        ≠ trieListContentsB (TrieNode.mk (TrieChildren.cons 98 (TrieNode.mk .nil true)
            (TrieChildren.cons 97 (TrieNode.mk .nil true) .nil)) false) := by
  refine ⟨?_, ?_, ?_⟩
  · intro r
    by_cases h97 : (97 : Nat) = r
    · subst h97
      rfl
    · by_cases h98 : (98 : Nat) = r
      · subst h98
        rfl
      · simp [getChild, h97, h98]
  · simp only [keysC]
    exact List.Perm.swap 98 97 []
  · decide

/-- **C8.**  The ternary search tree's collection visits left subtree,
own end flag, mid subtree (prefix extended), then right subtree — this is
`collectT`'s definition — and consequently both `ListContents()` and every
successful `Autocomplete(prefix)` emit the stored words in strictly
ascending lexicographic order of their byte sequences. -/
theorem c8_tst_lexicographic_order (ws : List (List Nat)) (u : TstNode)
    (hb : ∀ w ∈ ws, ∀ b ∈ w, b < 256)
    (hu : tstInsertAll TstNode.nilt ws = some u) :
    (tstListContents u).Pairwise lexLt ∧
      ∀ p res, tstAutocomplete1 u p = some res → res.Pairwise lexLt := by
  have hinv : bstInv u := tstInsertAll_inv ws TstNode.nilt u hu trivial
  have hch : charsBounded 256 u := tstInsertAll_chars 256 ws TstNode.nilt u hu trivial hb
  constructor
  · exact collect_pairwise u hinv hch []
  · intro p res hres
    rcases hu2 : u with _ | ⟨ch, l, m, r, e⟩
    · subst hu2
      simp only [tstAutocomplete1] at hres
      cases hres
      simp
    · subst hu2
      cases p with
      | nil => simp [tstAutocomplete1] at hres
      | cons c rest =>
        simp only [tstAutocomplete1, Option.some.injEq] at hres
        subst hres
        rcases hg : getPrefT (TstNode.node ch l m r e) c rest with _ | ⟨ch2, l2, m2, r2, e2⟩
        · simp [hg]
        · simp only [hg]
          have hinv2 := getPrefT_inv _ hinv c rest
          have hch2 := getPrefT_chars 256 _ hch c rest
          rw [hg] at hinv2 hch2
          exact collect_pairwise m2 hinv2.2.2.2.1 hch2.2.2.1 (c :: rest)

/-- Witness for C8: inserting "b" then "a" still lists in ascending
order. -/
theorem c8_tst_lexicographic_order_witness :
    (tstListContents (insertT (insertT TstNode.nilt 98 []) 97 [])).Pairwise lexLt :=
  (c8_tst_lexicographic_order [[98], [97]]
    (insertT (insertT TstNode.nilt 98 []) 97 []) (by decide) rfl).1

/-- **C9.**  Insertion is monotone on both backends, for every store
state: a previously contained word stays contained after any further
insertion — insert only creates nodes and sets end flags, never unsets a
flag or detaches a subtree.  Both halves quantify over arbitrary starting
stores (for the ternary tree this includes states unreachable by
insertion alone, such as the sentinel root left by `Clear()`); the
operational hypotheses `= some …` merely record that the contained word
and the inserted word are non-empty, since the ternary backend panics on
empty words. -/
theorem c9_insert_monotone :
    (∀ (t : TrieNode) (v w : List Nat), trieContainsR t v = true →
      trieContainsR (trieInsertR t w) v = true) ∧
      (∀ (t : TstNode) (v w : List Nat), tstContains1 t v = some true →
        ∀ u2, tstInsert1 t w = some u2 → tstContains1 u2 v = some true) := by
  constructor
  · intro t v w h
    rw [trie_contains_insert w t v]
    exact Or.inr h
  · intro t v w hc u2 hins
    cases v with
    | nil => simp [tstContains1] at hc
    | cons c rest =>
      cases w with
      | nil => simp [tstInsert1] at hins
      | cons c2 rest2 =>
        simp only [tstInsert1, Option.some.injEq] at hins
        subst hins
        simp only [tstContains1, Option.some.injEq] at hc ⊢
        exact tst_contains_mono t c2 rest2 c rest hc

/-- Witness for C9: "a" stays contained after inserting "b", on both
backends; the ternary store starts from a post-`Clear()` sentinel root, a
state not reachable by insertion alone. -/
theorem c9_insert_monotone_witness :
    trieContainsR (trieInsertR (trieInsertR newTrie [97]) [98]) [97] = true ∧
      tstContains1 (insertT (insertT (tstClear TstNode.nilt) 97 []) 98 []) [97]
        = some true :=
  ⟨c9_insert_monotone.1 (trieInsertR newTrie [97]) [97] [98] (by decide),
   c9_insert_monotone.2 (insertT (tstClear TstNode.nilt) 97 []) [97] [98] (by decide)
     (insertT (insertT (tstClear TstNode.nilt) 97 []) 98 []) rfl⟩

/-- **C10.**  The ternary search tree walks a word byte by byte (each
node stores one byte of the string, cast to a rune): for every non-empty
word — over arbitrary byte values, hence including multi-byte UTF-8
characters — and from any starting tree, `Insert(w)` followed by
`Contains(w)` answers true, because both descend over the identical byte
sequence. -/
theorem c10_tst_insert_then_contains (t : TstNode) (c : Nat) (rest : List Nat) :
    tstInsert1 t (c :: rest) = some (insertT t c rest) ∧
      tstContains1 (insertT t c rest) (c :: rest) = some true := by
  refine ⟨rfl, ?_⟩
  simp only [tstContains1, Option.some.injEq]
  exact contains_insertT_self t c rest

/-- Witness for the amended C3: inserting "b" then "a" lists exactly
those two words on the trie backend. -/
theorem c3_list_contents_exact_witness :
    List.Perm (trieRunList [[98], [97]]) [[98], [97]] :=
  (c3_list_contents_exact [[98], [97]] (by decide) (by decide) (by decide)).1
